import Mathlib

/-!
Shallow embedding of the core of the anidb-go UDP API client
(`udpapi/mux.go`, `udpapi/keepalive.go`, `udpapi/client.go`).

Bytes are modelled as `Nat` (values < 256 in practice), byte strings and
Go strings as `List Nat` / `List Char`, Go machine integers as `Nat`
with explicit `% 2 ^ 64` where wrap-around matters (the tag counter),
and `time.Time` / `time.Duration` as mathematical `Int` nanoseconds.
Go panics are modelled as explicit result constructors.
-/

/-! ## Codec: PKCS#5 padded ECB block cipher (`mux.go` encrypt/decrypt) -/

/-- A block cipher as used through Go's `cipher.Block` interface:
a block size, and per-block encrypt/decrypt functions (the Go methods
`Encrypt`/`Decrypt` act on exactly one block of `bs` bytes). -/
structure BlockCipher where
  bs : Nat
  enc : List Nat → List Nat
  dec : List Nat → List Nat

/-- Split a byte string into consecutive `bs`-byte chunks, mirroring the
`for i := 0; i < len(b); i += bs` loops of `encrypt`/`decrypt`.
The first argument is fuel; `b.length` is always enough when `0 < bs`. -/
def chunksAux : Nat → Nat → List Nat → List (List Nat)
  | 0, _, _ => []
  | fuel + 1, bs, b =>
    if b = [] then [] else List.take bs b :: chunksAux fuel bs (List.drop bs b)

def chunks (bs : Nat) (b : List Nat) : List (List Nat) :=
  chunksAux b.length bs b

/-- The PKCS#5 gap computed by `encrypt`: `gap := bs - (len(b) % bs)`. -/
def pkcsGap (bs len : Nat) : Nat := bs - len % bs

/-- Go `encrypt` (mux.go): append `gap` bytes of value `byte(gap)`
(`gap % 256` as a byte), then encipher each `bs`-byte block in place. -/
def encrypt (C : BlockCipher) (b : List Nat) : List Nat :=
  let gap := pkcsGap C.bs b.length
  let padded := b ++ List.replicate gap (gap % 256)
  ((chunks C.bs padded).map C.enc).flatten

/-- The blockwise deciphering step of Go `decrypt` (before padding
removal). -/
def decipher (C : BlockCipher) (b : List Nat) : List Nat :=
  ((chunks C.bs b).map C.dec).flatten

/-- Result of Go `decrypt`: success, the explicit
`"decrypt blocks: incomplete blocks"` error, or a runtime panic
(index out of range / slice bounds). -/
inductive DecResult where
  | ok (b : List Nat)
  | framingError
  | panicked
deriving DecidableEq, Repr

/-- Go `decrypt` (mux.go): error when the length is not a multiple of
the block size; otherwise decipher blockwise, read the trailing pad
byte `pad := b[len(b)-1]` (an index-out-of-range panic when the input
is empty), and return `b[:len(b)-int(pad)]` (a slice-bounds panic when
`pad` exceeds the length). -/
def decrypt (C : BlockCipher) (b : List Nat) : DecResult :=
  if b.length % C.bs ≠ 0 then .framingError
  else
    let d := decipher C b
    if d = [] then .panicked
    else
      let pad := d.getLastD 0
      if d.length < pad then .panicked
      else .ok (d.take (d.length - pad))

/-- The identity block cipher on 2-byte blocks (a concrete, trivially
invertible `cipher.Block` used to instantiate theorems). -/
def idCipher2 : BlockCipher := ⟨2, fun b => b, fun b => b⟩

/-- The identity block cipher on 256-byte blocks, the largest block
size `encrypt` accepts without panicking (`bs > 256` panics). -/
def idCipher256 : BlockCipher := ⟨256, fun b => b, fun b => b⟩

/-! ## Response router (`mux.go` responseMap) -/

/-- A pending-response slot, modelling the `chan []byte` of capacity 1
created by `waitFor`: the messages sent into it (in order) and whether
it has been closed. -/
structure Slot where
  buf : List (List Nat)
  closed : Bool

/-- The `responseMap` state: the `sync.Map` from tag to slot id, the
slots created so far (as a total function from slot ids), and the next
fresh slot id. -/
structure RMap where
  table : List (List Char × Nat)
  slots : Nat → Slot
  next : Nat

/-- First-match association-list lookup, the `sync.Map` key lookup. -/
def lookupTag (t : List Char) : List (List Char × Nat) → Option Nat
  | [] => none
  | (k, v) :: rest => if k = t then some v else lookupTag t rest

/-- Key removal, the `sync.Map` delete (keys are unique in a map, so
removing every matching entry is the same operation). -/
def removeTag (t : List Char) (l : List (List Char × Nat)) :
    List (List Char × Nat) :=
  l.filter (fun p => decide (p.1 ≠ t))

/-- Result of `waitFor`: a new state plus the registered slot id, or a
panic (`panic("dupe tag …")`) that leaves the map as it was, since
`LoadOrStore` does not overwrite an existing entry. -/
inductive WaitRes where
  | ok (s : RMap) (slot : Nat)
  | panicked (s : RMap)

/-- Go `responseMap.waitFor`: make a fresh one-slot channel and
`LoadOrStore` it under `t`; if `t` was already present, panic. -/
def waitFor (t : List Char) (s : RMap) : WaitRes :=
  match lookupTag t s.table with
  | some _ => .panicked s
  | none =>
      .ok
        { table := (t, s.next) :: s.table
          slots := fun i => if i = s.next then ⟨[], false⟩ else s.slots i
          next := s.next + 1 }
        s.next

/-- Go `responseMap.deliver`: `LoadAndDelete` the tag; if absent, log
"unknown tag" and return (the Bool result records whether a slot was
fulfilled); if present, send `b` on the channel and close it. -/
def deliver (t : List Char) (b : List Nat) (s : RMap) : RMap × Bool :=
  match lookupTag t s.table with
  | none => (s, false)
  | some id =>
      ({ table := removeTag t s.table
         slots := fun i =>
           if i = id then ⟨(s.slots i).buf ++ [b], true⟩ else s.slots i
         next := s.next }, true)

/-- Go `responseMap.cancel`: delete the tag from the map. -/
def cancel (t : List Char) (s : RMap) : RMap :=
  { s with table := removeTag t s.table }

/-! ## Tag counter (`mux.go` tagCounter) -/

/-- Lowercase hex digit for a value `< 16`, as produced by `%x`. -/
def hexDigitChar (n : Nat) : Char :=
  if n < 10 then Char.ofNat (48 + n) else Char.ofNat (87 + n)

/-- Hex digits of `n` (empty for 0), most significant first.  Fuel
recursion; `17` digits are enough for every value `< 16 ^ 17`, which
covers every 64-bit counter value and its successor. -/
def toHexAux : Nat → Nat → List Char
  | 0, _ => []
  | fuel + 1, n =>
    if n = 0 then [] else toHexAux fuel (n / 16) ++ [hexDigitChar (n % 16)]

/-- Go `fmt.Sprintf("%x", n)` for unsigned `n`: lowercase hexadecimal,
no leading zeros, and `"0"` for zero.  Faithful for `n < 16 ^ 17`. -/
def hexRepr (n : Nat) : List Char :=
  if n = 0 then [Char.ofNat 48] else toHexAux 17 n

/-- Numeric value of a lowercase hex digit character. -/
def hexDigitVal (c : Char) : Nat :=
  if 97 ≤ c.toNat then c.toNat - 87 else c.toNat - 48

/-- Parse a lowercase hex string back to its value. -/
def hexToNat (s : List Char) : Nat :=
  List.foldl (fun acc c => acc * 16 + hexDigitVal c) 0 s

/-- The modulus of Go's `uint` (64-bit). -/
def uintSize : Nat := 2 ^ 64

/-- Go `tagCounter.next`: increment the `uint` counter (wrapping at
`2 ^ 64`) and format it with `%x`. -/
def tagNext (c : Nat) : Nat × List Char :=
  let c2 := (c + 1) % uintSize
  (c2, hexRepr c2)

/-- Counter value after `n` calls to `next`, starting from the zero
value. -/
def counterAfter : Nat → Nat
  | 0 => 0
  | n + 1 => (tagNext (counterAfter n)).1

/-- The tag returned by the `n`-th call to `next` (`n ≥ 1`). -/
def nthTag (n : Nat) : List Char :=
  (tagNext (counterAfter (n - 1))).2

/-! ## Response parsing (`mux.go` splitTag / parseResponse) -/

/-- Go `strings.Split(s, sep)` for a one-character separator: always
returns at least one (possibly empty) part. -/
def splitOnChar (c : Char) : List Char → List (List Char)
  | [] => [[]]
  | a :: rest =>
    if a = c then [] :: splitOnChar c rest
    else
      match splitOnChar c rest with
      | [] => [[a]]
      | r :: rs => (a :: r) :: rs

/-- Go `strings.SplitN(s, sep, 2)` for a one-character separator:
split at the first occurrence only. -/
def splitN2 (c : Char) : List Char → List (List Char)
  | [] => [[]]
  | a :: rest =>
    if a = c then [[], rest]
    else
      match splitN2 c rest with
      | [] => [[a]]
      | r :: rs => (a :: r) :: rs

def isDigitChar (c : Char) : Bool :=
  decide (48 ≤ c.toNat) && decide (c.toNat ≤ 57)

def digitsToNatAux : Nat → List Char → Option Nat
  | acc, [] => some acc
  | acc, c :: rest =>
    if isDigitChar c then digitsToNatAux (acc * 10 + (c.toNat - 48)) rest
    else none

/-- Value of a nonempty all-digit string; `none` otherwise. -/
def digitsToNat (s : List Char) : Option Nat :=
  if s = [] then none else digitsToNatAux 0 s

/-- Go `strconv.Atoi`: optional sign, then decimal digits; fails on the
empty string, a lone sign, any non-digit, or 64-bit overflow. -/
def atoi (s : List Char) : Option Int :=
  match s with
  | c :: rest =>
    if c = Char.ofNat 43 then
      (digitsToNat rest).bind fun n =>
        if n < 2 ^ 63 then some (n : Int) else none
    else if c = Char.ofNat 45 then
      (digitsToNat rest).bind fun n =>
        if n ≤ 2 ^ 63 then some (-(n : Int)) else none
    else
      (digitsToNat s).bind fun n =>
        if n < 2 ^ 63 then some (n : Int) else none
  | [] => none

/-- Go `strings.ReplaceAll` restricted to a nonempty pattern: leftmost,
non-overlapping, scanning resumes after the replacement.  Fuel
recursion; `s.length` is always enough fuel. -/
def replaceAllAux (pat rep : List Char) : Nat → List Char → List Char
  | 0, s => s
  | fuel + 1, s =>
    match s with
    | [] => []
    | a :: rest =>
      if pat.isPrefixOf s then rep ++ replaceAllAux pat rep fuel (s.drop pat.length)
      else a :: replaceAllAux pat rep fuel rest

def replaceAll (pat rep s : List Char) : List Char :=
  if pat = [] then s else replaceAllAux pat rep s.length s

def backquoteChar : Char := Char.ofNat 96

def aposChar : Char := Char.ofNat 39

/-- Go `unescapeField`: replace the `<br />` escape by a newline, a
backquote by an apostrophe, and a slash by a pipe. -/
def unescapeField (s : List Char) : List Char :=
  replaceAll (String.toList "/") (String.toList "|")
    (replaceAll [backquoteChar] [aposChar]
      (replaceAll (String.toList "<br />") (String.toList "\n") s))

/-- An AniDB UDP API response (`mux.go` Response). -/
structure Response where
  Code : Int
  Header : List Char
  Rows : List (List (List Char))
deriving DecidableEq, Repr

/-- Go `splitTag`: split the tag off the front of a response body at
the first space (body `none` when there is no space, mirroring the
`nil` rest). -/
def splitTag (b : List Char) : List Char × Option (List Char) :=
  let parts := splitN2 (Char.ofNat 32) b
  match parts with
  | [tag] => (tag, none)
  | tag :: rest :: _ => (tag, some rest)
  | [] => ([], none)

/-- Go `parseResponse`: split into lines, split the first line into
code and header at the first space, `Atoi` the code (the error carries
the token that failed to parse, as Go's `strconv.NumError` does), and
turn each subsequent non-empty line into a row by splitting on pipes
and unescaping every field. -/
def parseResponse (b : List Char) : Except (List Char) Response :=
  let lines := splitOnChar (Char.ofNat 10) b
  let parts := splitN2 (Char.ofNat 32) (lines.headD [])
  let p0 := parts.headD []
  match atoi p0 with
  | none => .error p0
  | some code =>
      .ok
        { Code := code
          Header := if 1 < parts.length then parts.getD 1 [] else []
          Rows :=
            ((lines.drop 1).filter (fun l => decide (l ≠ []))).map
              fun line => (splitOnChar (Char.ofNat 124) line).map unescapeField }

/-! ## Keepalive (`keepalive.go`) -/

/-- Nanoseconds per second (`time.Second`). -/
def nsPerSec : Int := 1000000000

def minKeepAliveInterval : Int := 30 * nsPerSec

def maxKeepAliveInterval : Int := 300 * nsPerSec

/-- The `10 * time.Second` adjustment step of `updateInterval`. -/
def tenSeconds : Int := 10 * nsPerSec

/-- Keepalive state (`keepAlive` fields plus the sleeper's last-activity
timestamp): times and durations are `Int` nanoseconds. -/
structure KAState where
  lastActive : Int
  lastPort : List Char
  interval : Int
  timeoutHit : Bool
deriving DecidableEq, Repr

/-- Go `inactiveSleeper.sinceActive`. -/
def sinceActive (s : KAState) (t : Int) : Int := t - s.lastActive

/-- Go `inactiveSleeper.activate`: bump the last-activity timestamp if
`t` is later. -/
def activate (s : KAState) (t : Int) : KAState :=
  if s.lastActive < t then { s with lastActive := t } else s

/-- Go `keepAlive.updateInterval`. -/
def updateInterval (s : KAState) (t : Int) (port : List Char) : KAState :=
  let elapsed := sinceActive s t
  let s1 := activate s t
  if s1.lastPort ≠ port then
    if tenSeconds < elapsed - s1.interval then s1
    else
      let s2 : KAState :=
        { s1 with timeoutHit := true, interval := s1.interval - tenSeconds }
      let s3 : KAState :=
        if s2.interval < minKeepAliveInterval then
          { s2 with interval := minKeepAliveInterval }
        else s2
      { s3 with lastPort := port }
  else if s1.timeoutHit = false then
    let s2 : KAState := { s1 with interval := elapsed + tenSeconds }
    if maxKeepAliveInterval < s2.interval then
      { s2 with interval := maxKeepAliveInterval }
    else s2
  else s1

/-- State after `keepAlive.initialize`: the PING result as the last
port, the current time as last activity, interval one minute, and the
timeout flag at its zero value. -/
def initKAState (t0 : Int) (port0 : List Char) : KAState :=
  { lastActive := t0, lastPort := port0, interval := 60 * nsPerSec,
    timeoutHit := false }

/-- Fold a sequence of `updateInterval` calls over a state. -/
def runKeepAlive (s : KAState) (calls : List (Int × List Char)) : KAState :=
  List.foldl (fun st c => updateInterval st c.1 c.2) s calls

/-! ## Client logout (`client.go` Client.Logout) -/

/-- The client state that `Logout` touches: the session key and whether
a cipher block is installed in the mux (`SetBlock(nil)` clears it). -/
structure ClientState where
  sessionKey : List Char
  blockSet : Bool
deriving DecidableEq, Repr

inductive LogoutErr where
  | noSession
  | requestFailed
  | badCode (c : Int)
deriving DecidableEq, Repr

/-- Go `Client.Logout`, with the outcome of the underlying
`Mux.Request` passed in as an oracle: on a missing session key or a
request error it returns early, leaving the state untouched; once a
response arrives it unsets the cipher block and clears the session key
before checking the return code. -/
def logout (s : ClientState) (outcome : Except Unit Response) :
    ClientState × Except LogoutErr Unit :=
  if s.sessionKey = [] then (s, .error .noSession)
  else
    match outcome with
    | .error _ => (s, .error .requestFailed)
    | .ok resp =>
        let s2 : ClientState := { sessionKey := [], blockSet := false }
        if resp.Code = 203 then (s2, .ok ())
        else (s2, .error (.badCode resp.Code))

/-- An empty router, the state of a fresh `responseMap`. -/
def rmap0 : RMap := ⟨[], fun _ => ⟨[], false⟩, 0⟩

/-- A router with the tag `"1"` pending in slot 0 (the state after one
successful `waitFor`). -/
def rmap1 : RMap :=
  ⟨[([Char.ofNat 49], 0)], fun _ => ⟨[], false⟩, 1⟩

/-! # Theorems -/

/-! ## Router lemmas -/

theorem lookupTag_removeTag (t : List Char) (l : List (List Char × Nat)) :
    lookupTag t (removeTag t l) = none := by
  induction l with
  | nil => rfl
  | cons p rest ih =>
    by_cases h : p.1 = t
    · simpa [removeTag, List.filter, h] using ih
    · simpa [removeTag, List.filter, h, lookupTag] using ih

/-- C1: if the router registers a tag `t` via `waitFor` (which succeeds
because `t` is not yet present) and `deliver t b` then runs with no
intervening `cancel`, the slot registered for `t` receives exactly the
payload `b`, exactly once (its buffer is `[b]` and the channel is
closed), the routing table no longer contains `t`, and the delivery
fulfilled a slot. -/
theorem c1_register_then_deliver (s : RMap) (t : List Char) (b : List Nat)
    (h : lookupTag t s.table = none) :
    ∃ (s1 : RMap) (slot : Nat), waitFor t s = .ok s1 slot ∧
      ((deliver t b s1).1.slots slot).buf = [b] ∧
      ((deliver t b s1).1.slots slot).closed = true ∧
      lookupTag t (deliver t b s1).1.table = none ∧
      (deliver t b s1).2 = true := by
  refine
    ⟨{ table := (t, s.next) :: s.table
       slots := fun i => if i = s.next then ⟨[], false⟩ else s.slots i
       next := s.next + 1 }, s.next, ?_, ?_, ?_, ?_, ?_⟩
  · unfold waitFor
    rw [h]
  all_goals
    have hl : lookupTag t ((t, s.next) :: s.table) = some s.next := by
      simp [lookupTag]
    simp [deliver, hl, lookupTag_removeTag]

theorem c1_witness :
    lookupTag [Char.ofNat 97] rmap0.table = none ∧
    ∃ (s1 : RMap) (slot : Nat),
      waitFor [Char.ofNat 97] rmap0 = .ok s1 slot ∧
      ((deliver [Char.ofNat 97] [5] s1).1.slots slot).buf = [[5]] ∧
      ((deliver [Char.ofNat 97] [5] s1).1.slots slot).closed = true ∧
      lookupTag [Char.ofNat 97] (deliver [Char.ofNat 97] [5] s1).1.table = none ∧
      (deliver [Char.ofNat 97] [5] s1).2 = true :=
  ⟨rfl, c1_register_then_deliver rmap0 [Char.ofNat 97] [5] rfl⟩

/-- C6 (counterexample): registering a tag that is already present does
not "refuse silently by failing the new registration": `waitFor` hits
the `panic("dupe tag …")` path, i.e. it terminates the program. -/
theorem c6_counterexample :
    waitFor [Char.ofNat 49] rmap1 = .panicked rmap1 := rfl

/-- C6 (amended): if `waitFor` is called with a tag that is already
present in the routing table, the implementation panics — terminating
the program — and leaves the routing table and every existing slot
untouched (`LoadOrStore` does not overwrite an existing entry). -/
theorem c6_amended (s : RMap) (t : List Char) (id : Nat)
    (h : lookupTag t s.table = some id) :
    waitFor t s = .panicked s := by
  unfold waitFor
  rw [h]

theorem c6_witness :
    lookupTag [Char.ofNat 49] rmap1.table = some 0 ∧
    waitFor [Char.ofNat 49] rmap1 = .panicked rmap1 :=
  ⟨rfl, c6_amended rmap1 [Char.ofNat 49] 0 rfl⟩

/-! ## Keepalive lemmas -/

theorem activate_lastPort (s : KAState) (t : Int) :
    (activate s t).lastPort = s.lastPort := by
  unfold activate; split <;> rfl

theorem activate_interval (s : KAState) (t : Int) :
    (activate s t).interval = s.interval := by
  unfold activate; split <;> rfl

theorem activate_timeoutHit (s : KAState) (t : Int) :
    (activate s t).timeoutHit = s.timeoutHit := by
  unfold activate; split <;> rfl

/-- Branch-free restatement of `updateInterval` used to settle the
keepalive claims. -/
theorem updateInterval_eq (s : KAState) (t : Int) (port : List Char) :
    updateInterval s t port =
      if port = s.lastPort then
        if s.timeoutHit = false then
          { lastActive := (activate s t).lastActive
            lastPort := s.lastPort
            interval := min (t - s.lastActive + tenSeconds) maxKeepAliveInterval
            timeoutHit := s.timeoutHit }
        else activate s t
      else
        if tenSeconds < t - s.lastActive - s.interval then activate s t
        else
          { lastActive := (activate s t).lastActive
            lastPort := port
            interval := max (s.interval - tenSeconds) minKeepAliveInterval
            timeoutHit := true } := by
  unfold updateInterval sinceActive
  simp only [activate_lastPort, activate_interval, activate_timeoutHit]
  by_cases hp : s.lastPort = port
  · simp only [hp, ne_eq, not_true_eq_false, if_neg, ite_false, if_pos rfl,
      ite_true, not_false_eq_true]
    by_cases hf : s.timeoutHit = false
    · simp only [hf, ite_true, if_pos rfl]
      by_cases hm : maxKeepAliveInterval < t - s.lastActive + tenSeconds
      · simp only [if_pos hm, KAState.mk.injEq, activate_lastPort, hp]
        refine ⟨trivial, trivial, by omega, trivial⟩
      · simp only [if_neg hm, KAState.mk.injEq, activate_lastPort, hp]
        refine ⟨trivial, trivial, by omega, trivial⟩
    · simp [hf]
  · have hp2 : ¬ port = s.lastPort := fun he => hp he.symm
    simp only [hp, hp2, ne_eq, not_false_eq_true, ite_true, ite_false, if_neg]
    by_cases hd : tenSeconds < t - s.lastActive - s.interval
    · simp [hd]
    · simp only [hd, ite_false, if_neg hd]
      by_cases hc : s.interval - tenSeconds < minKeepAliveInterval
      · simp only [if_pos hc, KAState.mk.injEq]
        refine ⟨trivial, trivial, by omega, trivial⟩
      · simp only [if_neg hc, KAState.mk.injEq]
        refine ⟨trivial, trivial, by omega, trivial⟩

/-- C3: behaviour of `updateInterval` at elapsed time
`D = sinceActive s t`, with `ε = 10 s`: same port and flag false raises
the interval to `min (D + ε) I_max`; same port and flag true keeps it;
a changed port with `D − I ≤ ε` sets the flag, lowers the interval to
`max (I − ε) I_min` and stores the new port; a changed port with
`D − I > ε` changes nothing except the last-activity timestamp. -/
theorem c3_updateInterval_cases (s : KAState) (t : Int) (port : List Char) :
    (port = s.lastPort → s.timeoutHit = false →
      (updateInterval s t port).interval
        = min (sinceActive s t + tenSeconds) maxKeepAliveInterval) ∧
    (port = s.lastPort → s.timeoutHit = true →
      (updateInterval s t port).interval = s.interval) ∧
    (port ≠ s.lastPort → sinceActive s t - s.interval ≤ tenSeconds →
      (updateInterval s t port).timeoutHit = true ∧
      (updateInterval s t port).interval
        = max (s.interval - tenSeconds) minKeepAliveInterval ∧
      (updateInterval s t port).lastPort = port) ∧
    (port ≠ s.lastPort → tenSeconds < sinceActive s t - s.interval →
      (updateInterval s t port).interval = s.interval ∧
      (updateInterval s t port).timeoutHit = s.timeoutHit ∧
      (updateInterval s t port).lastPort = s.lastPort ∧
      (updateInterval s t port).lastActive = (activate s t).lastActive) := by
  refine ⟨?_, ?_, ?_, ?_⟩
  · intro hp hf
    rw [updateInterval_eq, if_pos hp, if_pos hf]
    simp [sinceActive]
  · intro hp hf
    rw [updateInterval_eq, if_pos hp, if_neg (by simp [hf])]
    exact activate_interval s t
  · intro hp hd
    unfold sinceActive at hd
    rw [updateInterval_eq, if_neg hp, if_neg (by omega)]
    exact ⟨rfl, rfl, rfl⟩
  · intro hp hd
    unfold sinceActive at hd
    rw [updateInterval_eq, if_neg hp, if_pos hd]
    exact ⟨activate_interval s t, activate_timeoutHit s t,
      activate_lastPort s t, rfl⟩

theorem c3_witness :
    (String.toList "123" = (initKAState 0 (String.toList "123")).lastPort ∧
      (initKAState 0 (String.toList "123")).timeoutHit = false) ∧
    (updateInterval (initKAState 0 (String.toList "123")) (60 * nsPerSec)
        (String.toList "123")).interval
      = min (sinceActive (initKAState 0 (String.toList "123")) (60 * nsPerSec)
            + tenSeconds)
          maxKeepAliveInterval :=
  ⟨⟨rfl, rfl⟩,
    (c3_updateInterval_cases (initKAState 0 (String.toList "123"))
      (60 * nsPerSec) (String.toList "123")).1 rfl rfl⟩

/-- C4 (counterexample): from the initialized keepalive state
(interval 60 s, flag false), a single `updateInterval` call with the
same port and zero elapsed time sets the interval to 10 s, below the
30 s lower bound: the raise branch has no lower clamp. -/
theorem c4_counterexample :
    (runKeepAlive (initKAState 0 (String.toList "123"))
        [(0, String.toList "123")]).interval = 10 * nsPerSec ∧
    ¬ (minKeepAliveInterval ≤ 10 * nsPerSec) := by
  constructor
  · decide
  · decide

theorem updateInterval_le_max (s : KAState) (t : Int) (port : List Char)
    (h : s.interval ≤ maxKeepAliveInterval) :
    (updateInterval s t port).interval ≤ maxKeepAliveInterval := by
  have hmin : minKeepAliveInterval ≤ maxKeepAliveInterval := by
    unfold minKeepAliveInterval maxKeepAliveInterval nsPerSec; omega
  have hten : 0 < tenSeconds := by
    unfold tenSeconds nsPerSec; omega
  rw [updateInterval_eq]
  split_ifs <;> simp [activate_interval, h]
  all_goals omega

/-- C4 (amended): starting from the initialized keepalive state
(interval 60 s, timeout flag false), the interval stays at most
`I_max = 5 min` after every call of any finite sequence of
`updateInterval` calls with arbitrary times and ports (every prefix of
a sequence is itself such a sequence).  The 30 s lower bound of the
original claim does not hold in general (see the counterexample). -/
theorem c4_amended (t0 : Int) (p0 : List Char)
    (calls : List (Int × List Char)) :
    (runKeepAlive (initKAState t0 p0) calls).interval
      ≤ maxKeepAliveInterval := by
  have h0 : (initKAState t0 p0).interval ≤ maxKeepAliveInterval := by
    simp only [initKAState]
    unfold maxKeepAliveInterval nsPerSec
    omega
  suffices H : ∀ s : KAState, s.interval ≤ maxKeepAliveInterval →
      (runKeepAlive s calls).interval ≤ maxKeepAliveInterval from
    H _ h0
  induction calls with
  | nil => intro s hs; exact hs
  | cons c rest ih =>
    intro s hs
    have hstep : runKeepAlive s (c :: rest)
        = runKeepAlive (updateInterval s c.1 c.2) rest := rfl
    rw [hstep]
    exact ih _ (updateInterval_le_max s c.1 c.2 hs)

/-- C10: if the underlying LOGOUT request fails with an error before
any response is parsed, `Client.Logout` leaves the stored session key
and the installed cipher block unchanged (the whole state is returned
as is); once a response arrives, both are cleared regardless of the
return code. -/
theorem c10_logout_state (s : ClientState) :
    (∀ e : Unit, s.sessionKey ≠ [] →
      (logout s (Except.error e)).1 = s ∧
      (logout s (Except.error e)).2 = Except.error LogoutErr.requestFailed) ∧
    (∀ resp : Response, s.sessionKey ≠ [] →
      (logout s (Except.ok resp)).1.sessionKey = [] ∧
      (logout s (Except.ok resp)).1.blockSet = false) := by
  constructor
  · intro e h
    simp [logout, h]
  · intro resp h
    simp only [logout, if_neg h]
    by_cases hc : resp.Code = 203
    · simp [hc]
    · simp [hc]

theorem c10_witness :
    (ClientState.mk [Char.ofNat 107] true).sessionKey ≠ [] ∧
    (logout (ClientState.mk [Char.ofNat 107] true)
        (Except.error ())).1 = ClientState.mk [Char.ofNat 107] true ∧
    (logout (ClientState.mk [Char.ofNat 107] true)
        (Except.ok (Response.mk 203 [] []))).1.sessionKey = [] ∧
    (logout (ClientState.mk [Char.ofNat 107] true)
        (Except.ok (Response.mk 203 [] []))).1.blockSet = false :=
  ⟨by decide,
    ((c10_logout_state (ClientState.mk [Char.ofNat 107] true)).1 ()
      (by decide)).1,
    ((c10_logout_state (ClientState.mk [Char.ofNat 107] true)).2
      (Response.mk 203 [] []) (by decide)).1,
    ((c10_logout_state (ClientState.mk [Char.ofNat 107] true)).2
      (Response.mk 203 [] []) (by decide)).2⟩

/-! ## Codec lemmas -/

theorem chunksAux_flatten (bs : Nat) (hbs : 0 < bs) :
    ∀ (fuel : Nat) (b : List Nat), b.length ≤ fuel →
      (chunksAux fuel bs b).flatten = b := by
  intro fuel
  induction fuel with
  | zero =>
    intro b hb
    have : b = [] := List.eq_nil_of_length_eq_zero (Nat.le_zero.mp hb)
    simp [this, chunksAux]
  | succ fuel ih =>
    intro b hb
    by_cases hn : b = []
    · simp [hn, chunksAux]
    · have hlen : 0 < b.length := List.length_pos.mpr hn
      simp only [chunksAux, if_neg hn, List.flatten_cons]
      rw [ih (List.drop bs b) (by simp; omega)]
      exact List.take_append_drop bs b

theorem chunksAux_length_mem (bs : Nat) (hbs : 0 < bs) :
    ∀ (fuel : Nat) (b : List Nat), b.length ≤ fuel → bs ∣ b.length →
      ∀ c ∈ chunksAux fuel bs b, c.length = bs := by
  intro fuel
  induction fuel with
  | zero => intro b _ _ c hc; simp [chunksAux] at hc
  | succ fuel ih =>
    intro b hb hdvd c hc
    by_cases hn : b = []
    · simp [hn, chunksAux] at hc
    · have hlen : 0 < b.length := List.length_pos.mpr hn
      have hble : bs ≤ b.length := Nat.le_of_dvd hlen hdvd
      simp only [chunksAux, if_neg hn, List.mem_cons] at hc
      rcases hc with hc | hc
      · subst hc
        simp [List.length_take]
        omega
      · exact ih (List.drop bs b) (by simp; omega)
          (by simp only [List.length_drop]; exact Nat.dvd_sub' hdvd dvd_rfl) c hc

theorem chunksAux_of_flatten (bs : Nat) (hbs : 0 < bs) :
    ∀ (L : List (List Nat)) (fuel : Nat), (∀ c ∈ L, c.length = bs) →
      L.flatten.length ≤ fuel → chunksAux fuel bs L.flatten = L := by
  intro L
  induction L with
  | nil => intro fuel _ _; cases fuel <;> simp [chunksAux]
  | cons c rest ih =>
    intro fuel hlen hfuel
    have hc : c.length = bs := hlen c (List.mem_cons_self c rest)
    have hcne : c ≠ [] := by
      intro he
      rw [he] at hc
      simp at hc
      omega
    have hne : (c :: rest).flatten ≠ [] := by
      simp only [List.flatten_cons]
      intro he
      exact hcne (List.append_eq_nil.mp he).1
    cases fuel with
    | zero =>
      exfalso
      have := List.length_pos.mpr hne
      omega
    | succ fuel =>
      simp only [List.flatten_cons] at hne hfuel ⊢
      simp only [chunksAux, if_neg hne]
      rw [List.take_left' hc, List.drop_left' hc]
      congr 1
      refine ih fuel (fun d hd => hlen d (List.mem_cons_of_mem c hd)) ?_
      rw [List.length_append] at hfuel
      omega

theorem flatten_length_of_mem (bs : Nat) :
    ∀ L : List (List Nat), (∀ c ∈ L, c.length = bs) →
      L.flatten.length = bs * L.length := by
  intro L
  induction L with
  | nil => simp
  | cons c rest ih =>
    intro hlen
    simp only [List.flatten_cons, List.length_append, List.length_cons]
    rw [hlen c (List.mem_cons_self c rest),
      ih (fun d hd => hlen d (List.mem_cons_of_mem c hd))]
    ring

theorem getLastD_append_singleton (l : List Nat) (a d : Nat) :
    (l ++ [a]).getLastD d = a := by
  induction l with
  | nil => rfl
  | cons x rest ih =>
    simp only [List.cons_append, List.getLastD_cons]
    simp [ih]

theorem getLastD_append_replicate (p : List Nat) (g v : Nat) (hg : 1 ≤ g) :
    (p ++ List.replicate g v).getLastD 0 = v := by
  obtain ⟨g0, rfl⟩ : ∃ g0, g = g0 + 1 := ⟨g - 1, by omega⟩
  rw [List.replicate_succ', ← List.append_assoc]
  exact getLastD_append_singleton _ v 0

theorem decrypt_framing (C : BlockCipher) (b : List Nat)
    (h : b.length % C.bs ≠ 0) : decrypt C b = .framingError := by
  unfold decrypt
  rw [if_pos h]

theorem decrypt_nil (C : BlockCipher) : decrypt C [] = .panicked := by
  unfold decrypt
  rw [if_neg (by simp)]
  simp [decipher, chunks, chunksAux]

theorem decrypt_eval (C : BlockCipher) (b : List Nat)
    (hmul : b.length % C.bs = 0)
    (hne : decipher C b ≠ [])
    (hpad : (decipher C b).getLastD 0 ≤ (decipher C b).length) :
    decrypt C b
      = .ok ((decipher C b).take
          ((decipher C b).length - (decipher C b).getLastD 0)) := by
  unfold decrypt
  rw [if_neg (by simp [hmul])]
  simp only [if_neg hne, if_neg (Nat.not_lt.mpr hpad)]

set_option maxRecDepth 100000 in
/-- C2 (counterexample): the claim admits every block size up to 256,
but at `bs = 256` a plaintext whose length is a multiple of 256 gets a
full block of pad bytes `byte(256) = 0`; decryption then reads pad
byte 0, strips nothing, and returns the padded block instead of the
plaintext.  Concretely, with the identity cipher on 256-byte blocks and
the empty plaintext, the round trip returns 256 zero bytes, not the
plaintext. -/
theorem c2_counterexample :
    decrypt idCipher256 (encrypt idCipher256 ([] : List Nat))
        = DecResult.ok (List.replicate 256 0) ∧
    DecResult.ok (List.replicate 256 0) ≠ DecResult.ok ([] : List Nat) := by
  constructor
  · decide
  · decide

/-- C2 (amended): for every plaintext `p` and block cipher with block
size `bs` satisfying `1 ≤ bs ≤ 255` (so that the pad byte `byte(gap)`
equals `gap`; at `bs = 256` the round trip can fail, see the
counterexample) whose per-block encrypt preserves block length and is
inverted by its decrypt, `encrypt p` has length a multiple of `bs` and
strictly greater than `p.length`, and `decrypt (encrypt p) = ok p`. -/
theorem c2_amended (C : BlockCipher) (p : List Nat)
    (hbs1 : 0 < C.bs) (hbs2 : C.bs ≤ 255)
    (henc : ∀ blk, blk.length = C.bs → (C.enc blk).length = C.bs)
    (hdec : ∀ blk, blk.length = C.bs → C.dec (C.enc blk) = blk) :
    (encrypt C p).length % C.bs = 0 ∧
    p.length < (encrypt C p).length ∧
    decrypt C (encrypt C p) = DecResult.ok p := by
  have hmod : p.length % C.bs < C.bs := Nat.mod_lt _ hbs1
  have hgap1 : 1 ≤ pkcsGap C.bs p.length := by unfold pkcsGap; omega
  have hgap2 : pkcsGap C.bs p.length ≤ C.bs := by unfold pkcsGap; omega
  have hbyte : pkcsGap C.bs p.length % 256 = pkcsGap C.bs p.length :=
    Nat.mod_eq_of_lt (by omega)
  set P : List Nat :=
    p ++ List.replicate (pkcsGap C.bs p.length) (pkcsGap C.bs p.length % 256)
    with hP
  have hE : encrypt C p = ((chunks C.bs P).map C.enc).flatten := rfl
  have hplen : P.length = p.length + pkcsGap C.bs p.length := by
    rw [hP]; simp
  have hmod0 : P.length % C.bs = 0 := by
    rw [hplen]
    by_cases hr : p.length % C.bs = 0
    · have hgb : pkcsGap C.bs p.length = C.bs := by unfold pkcsGap; omega
      rw [hgb, Nat.add_mod_right, hr]
    · have hlt : pkcsGap C.bs p.length < C.bs := by unfold pkcsGap; omega
      rw [Nat.add_mod, Nat.mod_eq_of_lt hlt]
      have hsum : p.length % C.bs + pkcsGap C.bs p.length = C.bs := by
        unfold pkcsGap; omega
      rw [hsum, Nat.mod_self]
  have hCH : ∀ c ∈ chunks C.bs P, c.length = C.bs :=
    chunksAux_length_mem C.bs hbs1 _ _ le_rfl (Nat.dvd_of_mod_eq_zero hmod0)
  have hCHflat : (chunks C.bs P).flatten = P :=
    chunksAux_flatten C.bs hbs1 _ _ le_rfl
  have hmapmem : ∀ c ∈ (chunks C.bs P).map C.enc, c.length = C.bs := by
    intro c hc
    rcases List.mem_map.mp hc with ⟨d, hd, rfl⟩
    exact henc d (hCH d hd)
  have hElen : (encrypt C p).length = C.bs * (chunks C.bs P).length := by
    rw [hE, flatten_length_of_mem C.bs _ hmapmem, List.length_map]
  have hPlen2 : P.length = C.bs * (chunks C.bs P).length := by
    conv_lhs => rw [← hCHflat]
    exact flatten_length_of_mem C.bs _ hCH
  have hElen2 : (encrypt C p).length = p.length + pkcsGap C.bs p.length := by
    rw [hElen, ← hPlen2, hplen]
  have hgoal1 : (encrypt C p).length % C.bs = 0 := by
    rw [hElen]
    exact Nat.mul_mod_right _ _
  refine ⟨hgoal1, by rw [hElen2]; omega, ?_⟩
  have hchE : chunks C.bs (encrypt C p) = (chunks C.bs P).map C.enc := by
    rw [hE]
    exact chunksAux_of_flatten C.bs hbs1 _ _ hmapmem le_rfl
  have hdec2 : decipher C (encrypt C p) = P := by
    unfold decipher
    rw [hchE, List.map_map]
    have hid : (chunks C.bs P).map (C.dec ∘ C.enc) = (chunks C.bs P).map id :=
      List.map_congr_left fun d hd => by
        simp only [Function.comp_apply, id_eq]
        exact hdec d (hCH d hd)
    rw [hid, List.map_id, hCHflat]
  have hlast : P.getLastD 0 = pkcsGap C.bs p.length := by
    rw [hP, getLastD_append_replicate p _ _ hgap1, hbyte]
  have hne : decipher C (encrypt C p) ≠ [] := by
    rw [hdec2]
    intro he
    have hl := congrArg List.length he
    rw [hplen] at hl
    simp at hl
    omega
  have hpad : (decipher C (encrypt C p)).getLastD 0
      ≤ (decipher C (encrypt C p)).length := by
    rw [hdec2, hlast, hplen]
    omega
  rw [decrypt_eval C (encrypt C p) hgoal1 hne hpad, hdec2, hlast, hplen]
  have hsub : p.length + pkcsGap C.bs p.length - pkcsGap C.bs p.length
      = p.length := by omega
  rw [hsub, hP, List.take_left]

theorem c2_witness :
    (0 < idCipher2.bs ∧ idCipher2.bs ≤ 255) ∧
    ((encrypt idCipher2 [1, 2, 3]).length % idCipher2.bs = 0 ∧
      ([1, 2, 3] : List Nat).length < (encrypt idCipher2 [1, 2, 3]).length ∧
      decrypt idCipher2 (encrypt idCipher2 [1, 2, 3])
        = DecResult.ok [1, 2, 3]) :=
  ⟨by decide,
    c2_amended idCipher2 [1, 2, 3] (by decide) (by decide)
      (fun blk h => h) (fun blk h => rfl)⟩

/-- C5 (counterexample): on the empty ciphertext (length zero, not a
nonzero multiple of the block size) `decrypt` does not fail with the
framing error: the length check `len % bs ≠ 0` passes, and reading the
trailing pad byte `b[len(b)-1]` panics with an index out of range. -/
theorem c5_counterexample :
    decrypt idCipher2 ([] : List Nat) = DecResult.panicked ∧
    DecResult.panicked ≠ DecResult.framingError := by
  constructor
  · decide
  · decide

/-- C5 (amended): for every block cipher with positive block size whose
per-block decrypt preserves length, `decrypt` fails with the framing
error exactly on lengths that are not multiples of the block size; the
empty ciphertext instead passes the length check and panics reading
the pad byte; and on a nonempty ciphertext of multiple-of-`bs` length
whose deciphered trailing pad byte is at most the length, that many
bytes are stripped from the deciphered bytes. -/
theorem c5_amended (C : BlockCipher) (b : List Nat) (hbs : 0 < C.bs)
    (hdlen : ∀ blk, (C.dec blk).length = blk.length) :
    (b.length % C.bs ≠ 0 → decrypt C b = DecResult.framingError) ∧
    decrypt C ([] : List Nat) = DecResult.panicked ∧
    (b.length % C.bs = 0 → b ≠ [] →
      (decipher C b).getLastD 0 ≤ b.length →
      decrypt C b
        = DecResult.ok ((decipher C b).take
            (b.length - (decipher C b).getLastD 0))) := by
  refine ⟨decrypt_framing C b, decrypt_nil C, ?_⟩
  intro hmul hbne hpad
  have hdlen2 : (decipher C b).length = b.length := by
    unfold decipher
    have hflat : (chunks C.bs b).flatten = b :=
      chunksAux_flatten C.bs hbs _ _ le_rfl
    have hmm : ∀ L : List (List Nat),
        ((L.map C.dec).flatten).length = L.flatten.length := by
      intro L
      induction L with
      | nil => rfl
      | cons c rest ih => simp [hdlen, ih]
    rw [hmm, hflat]
  have hne : decipher C b ≠ [] := by
    intro he
    have hl := congrArg List.length he
    rw [hdlen2] at hl
    simp at hl
    exact hbne hl
  rw [decrypt_eval C b hmul hne (by rw [hdlen2]; exact hpad), hdlen2]

theorem c5_witness :
    (0 < idCipher2.bs ∧ ([7] : List Nat).length % idCipher2.bs ≠ 0 ∧
      ([3, 4, 9, 1] : List Nat).length % idCipher2.bs = 0 ∧
      ([3, 4, 9, 1] : List Nat) ≠ [] ∧
      (decipher idCipher2 [3, 4, 9, 1]).getLastD 0
        ≤ ([3, 4, 9, 1] : List Nat).length) ∧
    decrypt idCipher2 [7] = DecResult.framingError ∧
    decrypt idCipher2 ([] : List Nat) = DecResult.panicked ∧
    decrypt idCipher2 [3, 4, 9, 1] = DecResult.ok [3, 4, 9] :=
  ⟨by decide,
    (c5_amended idCipher2 [7] (by decide) (fun blk => rfl)).1 (by decide),
    (c5_amended idCipher2 [7] (by decide) (fun blk => rfl)).2.1,
    by
      have h := (c5_amended idCipher2 [3, 4, 9, 1] (by decide)
        (fun blk => rfl)).2.2 (by decide) (by decide) (by decide)
      rw [h]
      decide⟩

/-! ## Parser theorems -/

/-- C7: splitting the tag off the datagram `"5 300 PONG\n123"` yields
tag `"5"` and body `"300 PONG\n123"`, and parsing that body yields
code 300, header `"PONG"`, and rows `[["123"]]`; in general, for every
successfully parsed response, the code is the `Atoi` of the first
space-separated token of the first line, the header is what trailed it
on the first line, and the rows are exactly the subsequent non-empty
lines split on `"|"` with every field unescaped. -/
theorem c7_parse_response :
    (splitTag (String.toList "5 300 PONG\n123")
        = (String.toList "5", some (String.toList "300 PONG\n123")) ∧
      parseResponse (String.toList "300 PONG\n123")
        = Except.ok
            (Response.mk 300 (String.toList "PONG")
              [[String.toList "123"]])) ∧
    (∀ (b : List Char) (r : Response), parseResponse b = Except.ok r →
      atoi ((splitN2 (Char.ofNat 32)
            ((splitOnChar (Char.ofNat 10) b).headD [])).headD [])
          = some r.Code ∧
      r.Header
        = (if 1 < (splitN2 (Char.ofNat 32)
              ((splitOnChar (Char.ofNat 10) b).headD [])).length
          then (splitN2 (Char.ofNat 32)
              ((splitOnChar (Char.ofNat 10) b).headD [])).getD 1 []
          else []) ∧
      r.Rows
        = (((splitOnChar (Char.ofNat 10) b).drop 1).filter
            (fun l => decide (l ≠ []))).map
            (fun line =>
              (splitOnChar (Char.ofNat 124) line).map unescapeField)) := by
  constructor
  · exact ⟨rfl, rfl⟩
  · intro b r h
    simp only [parseResponse] at h
    cases hA : atoi ((splitN2 (Char.ofNat 32)
        ((splitOnChar (Char.ofNat 10) b).headD [])).headD []) with
    | none =>
      rw [hA] at h
      cases h
    | some code =>
      rw [hA] at h
      injection h with h2
      subst h2
      exact ⟨rfl, rfl, rfl⟩

theorem c7_witness :
    parseResponse (String.toList "300 PONG\n123")
      = Except.ok
          (Response.mk 300 (String.toList "PONG") [[String.toList "123"]]) ∧
    (Response.mk 300 (String.toList "PONG") [[String.toList "123"]]).Rows
      = (((splitOnChar (Char.ofNat 10)
            (String.toList "300 PONG\n123")).drop 1).filter
          (fun l => decide (l ≠ []))).map
          (fun line => (splitOnChar (Char.ofNat 124) line).map unescapeField) :=
  ⟨rfl,
    (c7_parse_response.2 (String.toList "300 PONG\n123")
      (Response.mk 300 (String.toList "PONG") [[String.toList "123"]])
      rfl).2.2⟩

/-- C9 (counterexample): the parser does not return a distinguished
closed-pipe error on zero-length input: it fails with the generic
`Atoi` error on the empty first token, the exact same error value it
returns for the nonempty malformed input `" "` (one space), so the
caller cannot distinguish the two. -/
theorem c9_counterexample :
    parseResponse ([] : List Char) = Except.error ([] : List Char) ∧
    parseResponse [Char.ofNat 32] = Except.error ([] : List Char) ∧
    parseResponse ([] : List Char) = parseResponse [Char.ofNat 32] :=
  ⟨rfl, rfl, rfl⟩

/-- C9 (amended): zero-length input makes the parser fail, but with the
generic numeric-parse error on an empty first token, identical to the
error produced by some nonempty malformed inputs; no distinguished
closed-pipe error exists. -/
theorem c9_amended :
    parseResponse ([] : List Char) = Except.error ([] : List Char) ∧
    ∃ b : List Char, b ≠ [] ∧
      parseResponse b = parseResponse ([] : List Char) :=
  ⟨rfl, ⟨[Char.ofNat 32], by decide, rfl⟩⟩

/-! ## Tag counter theorems -/

theorem counterAfter_eq (n : Nat) : counterAfter n = n % uintSize := by
  induction n with
  | zero => rfl
  | succ n ih =>
    show (counterAfter n + 1) % uintSize = (n + 1) % uintSize
    rw [ih]
    have h1 : 1 % uintSize = 1 := by decide
    conv_rhs => rw [Nat.add_mod]
    rw [h1]

theorem nthTag_eq (n : Nat) (h : 1 ≤ n) :
    nthTag n = hexRepr (n % uintSize) := by
  show hexRepr ((counterAfter (n - 1) + 1) % uintSize) = hexRepr (n % uintSize)
  rw [counterAfter_eq]
  congr 1
  have h1 : 1 % uintSize = 1 := by decide
  calc ((n - 1) % uintSize + 1) % uintSize
      = ((n - 1) % uintSize + 1 % uintSize) % uintSize := by rw [h1]
    _ = (n - 1 + 1) % uintSize := (Nat.add_mod _ _ _).symm
    _ = n % uintSize := by congr 1; omega

theorem hexDigitVal_hexDigitChar :
    ∀ m : Fin 16, hexDigitVal (hexDigitChar m.val) = m.val := by decide

theorem toHexAux_foldl :
    ∀ (fuel n acc : Nat), n < 16 ^ fuel →
      List.foldl (fun a c => a * 16 + hexDigitVal c) acc (toHexAux fuel n)
        = acc * 16 ^ (toHexAux fuel n).length + n := by
  intro fuel
  induction fuel with
  | zero =>
    intro n acc h
    rw [pow_zero] at h
    have hn : n = 0 := by omega
    subst hn
    simp [toHexAux]
  | succ fuel ih =>
    intro n acc h
    by_cases hn : n = 0
    · subst hn; simp [toHexAux]
    · have hdivlt : n / 16 < 16 ^ fuel := by
        rw [Nat.div_lt_iff_lt_mul (by omega)]
        rw [pow_succ] at h
        omega
      simp only [toHexAux, if_neg hn]
      rw [List.foldl_append]
      simp only [List.foldl_cons, List.foldl_nil]
      rw [ih (n / 16) acc hdivlt]
      have hd : hexDigitVal (hexDigitChar (n % 16)) = n % 16 :=
        hexDigitVal_hexDigitChar ⟨n % 16, Nat.mod_lt _ (by omega)⟩
      rw [hd, List.length_append, List.length_cons, List.length_nil]
      calc (acc * 16 ^ (toHexAux fuel (n / 16)).length + n / 16) * 16 + n % 16
          = acc * (16 ^ (toHexAux fuel (n / 16)).length * 16)
              + (16 * (n / 16) + n % 16) := by ring
        _ = acc * 16 ^ ((toHexAux fuel (n / 16)).length + (0 + 1)) + n := by
            rw [← pow_succ, Nat.div_add_mod]
  
theorem hexToNat_hexRepr (n : Nat) (h : n < 16 ^ 17) :
    hexToNat (hexRepr n) = n := by
  by_cases hn : n = 0
  · subst hn; rfl
  · unfold hexRepr
    rw [if_neg hn]
    unfold hexToNat
    rw [toHexAux_foldl 17 n 0 h]
    simp

/-- C8 (counterexample): the tag counter is a Go `uint`, which wraps at
`2 ^ 64`: the `2 ^ 64`-th call returns the tag `"0"` — the formatted
wrapped counter — and not the hexadecimal representation of `2 ^ 64`,
so the claim fails for `n = 2 ^ 64` (and tags are not strictly
increasing across the wrap). -/
theorem c8_counterexample :
    nthTag uintSize = [Char.ofNat 48] ∧
    hexRepr uintSize ≠ [Char.ofNat 48] ∧
    nthTag uintSize ≠ hexRepr uintSize := by
  have h0 : nthTag uintSize = [Char.ofNat 48] := by
    rw [nthTag_eq uintSize (by decide), Nat.mod_self]
    rfl
  have h1 : hexRepr uintSize ≠ [Char.ofNat 48] := by
    intro he
    have hrt := hexToNat_hexRepr uintSize (by decide)
    rw [he] at hrt
    have h00 : hexToNat [Char.ofNat 48] = 0 := rfl
    rw [h00] at hrt
    have : (0 : Nat) < uintSize := by decide
    omega
  exact ⟨h0, h1, by rw [h0]; exact fun he => h1 he.symm⟩

/-- C8 (amended): for every `n` with `1 ≤ n < 2 ^ 64` (i.e. before the
64-bit counter wraps), the `n`-th call to the tag allocator returns
the lowercase hexadecimal representation of `n` with no leading zeros;
the first tag issued is `"1"`, and the values denoted by successive
tags strictly increase over that range. -/
theorem c8_amended (n : Nat) (h1 : 1 ≤ n) (h2 : n < uintSize) :
    nthTag n = hexRepr n ∧ hexToNat (nthTag n) = n ∧
    nthTag 1 = [Char.ofNat 49] ∧
    ∀ m : Nat, 1 ≤ m → m < n → hexToNat (nthTag m) < hexToNat (nthTag n) := by
  have hM : uintSize ≤ 16 ^ 17 := by decide
  have he : nthTag n = hexRepr n := by
    rw [nthTag_eq n h1, Nat.mod_eq_of_lt h2]
  have hv : hexToNat (nthTag n) = n := by
    rw [he]
    exact hexToNat_hexRepr n (by omega)
  refine ⟨he, hv, ?_, ?_⟩
  · rw [nthTag_eq 1 le_rfl, Nat.mod_eq_of_lt (by decide)]
    rfl
  · intro m hm1 hm2
    have hvm : hexToNat (nthTag m) = m := by
      rw [nthTag_eq m hm1, Nat.mod_eq_of_lt (by omega)]
      exact hexToNat_hexRepr m (by omega)
    omega

theorem c8_witness :
    (1 ≤ 3 ∧ 3 < uintSize) ∧
    (nthTag 3 = hexRepr 3 ∧ hexToNat (nthTag 3) = 3 ∧
      nthTag 1 = [Char.ofNat 49] ∧
      ∀ m : Nat, 1 ≤ m → m < 3 →
        hexToNat (nthTag m) < hexToNat (nthTag 3)) :=
  ⟨⟨by decide, by decide⟩, c8_amended 3 (by decide) (by decide)⟩
